import Mathlib

/-!
Verification of the state compressor of `src/service/rooms/state_compressor/mod.rs`.

Shallow embedding conventions:
* `HashSet<CompressedStateEvent>` is modelled as `Finset Nat` (the 16-byte
  values are abstract elements; the byte-level codec is modelled separately).
* The diff store (`data.rs`, not present under `src/`) is modelled from the
  spec, section 4.3, as a partial map `Nat → Option StateDiff` with
  `save_statediff` an unconditional upsert and lookup a point `get`.
* `load_shortstatehash_info` is recursive through the store, so the embedding
  takes a fuel argument; `none` covers both a missing record (`NotFound`) and
  fuel exhaustion (the source recursion terminates on the acyclic stores it is
  run on, and every theorem quantifies over sufficient fuel).
* `save_state_from_diff` performs exactly its `db.save_statediff` calls as
  side effects; the embedding returns the list of performed writes.
-/

namespace StateCompressor

/-- The persisted record for one short_state_hash, from `data::StateDiff`:
an optional parent, a set of added and a set of removed compressed events. -/
structure StateDiff where
  parent : Option Nat
  added : Finset Nat
  removed : Finset Nat
deriving DecidableEq

/-- One element of the stack returned by `load_shortstatehash_info`:
`(sstatehash, full state, added, removed)`. -/
structure StackEntry where
  sstatehash : Nat
  full : Finset Nat
  added : Finset Nat
  removed : Finset Nat
deriving DecidableEq

/-- Modelled from the spec, section 4.3: the diff store keyed by
short_state_hash (its implementation `data.rs` is not under `src/`). -/
def Store : Type := Nat → Option StateDiff

/-- The empty diff store. -/
def emptyStore : Store := fun _ => none

/-- Modelled from the spec, section 4.3: `save_statediff` is an unconditional
upsert of the record under the given short_state_hash. -/
def save_statediff (db : Store) (h : Nat) (d : StateDiff) : Store :=
  fun k => if k = h then some d else db k

/-- Apply a list of `save_statediff` writes in order. -/
def applyWrites (db : Store) (ws : List (Nat × StateDiff)) : Store :=
  ws.foldl (fun acc w => save_statediff acc w.1 w.2) db

/-- `load_shortstatehash_info` without the cache (lines 67-97 of
`state_compressor/mod.rs`): fetch the `StateDiff`; if it has a parent, recurse,
clone the last full state, extend it with `added`, delete every element of
`removed`, and push; otherwise return the single-element stack whose full
state is `added`.  The extra `Nat` argument is recursion fuel. -/
def load_shortstatehash_info (db : Store) : Nat → Nat → Option (List StackEntry)
  | 0, _ => none
  | Nat.succ fuel, shortstatehash =>
    match db shortstatehash with
    | none => none
    | some d =>
      match d.parent with
      | some parent =>
        match load_shortstatehash_info db fuel parent with
        | none => none
        | some response =>
          match response.getLast? with
          | none => none
          | some last =>
            some (response ++
              [⟨shortstatehash, (last.full ∪ d.added) \ d.removed, d.added, d.removed⟩])
      | none => some [⟨shortstatehash, d.added, d.added, d.removed⟩]

/-- Modelled from the spec, section 4.2 and `u64::to_be_bytes`: the eight
big-endian bytes of a 64-bit value (`utils` is not under `src/`). -/
def u64_to_be_bytes (n : Nat) : List Nat :=
  [n / 2 ^ 56 % 256, n / 2 ^ 48 % 256, n / 2 ^ 40 % 256, n / 2 ^ 32 % 256,
   n / 2 ^ 24 % 256, n / 2 ^ 16 % 256, n / 2 ^ 8 % 256, n % 256]

/-- Modelled from the spec, section 4.2: `utils::u64_from_bytes` reads a
big-endian 64-bit value (`utils` is not under `src/`). -/
def u64_from_bytes (bs : List Nat) : Nat :=
  bs.foldl (fun acc b => acc * 256 + b) 0

/-- `compress_state_event` (lines 100-110): the big-endian bytes of the
short state key followed by the big-endian bytes of the short event id that
the short-ID registry returns for the event (the registry itself, not under
`src/`, is abstracted: its result `shorteventid` is taken as the argument). -/
def compress_state_event (shortstatekey shorteventid : Nat) : List Nat :=
  u64_to_be_bytes shortstatekey ++ u64_to_be_bytes shorteventid

/-- `parse_compressed_state_event` (lines 113-122): the first eight bytes are
the short state key, the last eight the short event id, which is resolved
through the registry `reg` (modelled from the spec, section 4.1:
`get_eventid_from_short` is a lookup failing with `NotFound`). -/
def parse_compressed_state_event (reg : Nat → Option Nat) (bytes : List Nat) :
    Option (Nat × Nat) :=
  match reg (u64_from_bytes (bytes.drop 8)) with
  | some eventid => some (u64_from_bytes (bytes.take 8), eventid)
  | none => none

lemma u64_to_be_bytes_length (n : Nat) : (u64_to_be_bytes n).length = 8 := rfl

lemma u64_roundtrip (n : Nat) (h : n < 2 ^ 64) :
    u64_from_bytes (u64_to_be_bytes n) = n := by
  simp only [u64_to_be_bytes, u64_from_bytes, List.foldl]
  omega

lemma compress_take (k s : Nat) :
    (compress_state_event k s).take 8 = u64_to_be_bytes k := by
  simp [compress_state_event, List.take_append_eq_append_take,
    u64_to_be_bytes_length]

lemma compress_drop (k s : Nat) :
    (compress_state_event k s).drop 8 = u64_to_be_bytes s := by
  simp [compress_state_event, List.drop_append_eq_append_drop,
    u64_to_be_bytes_length]

lemma compress_injective (k s k' s' : Nat) (hk : k < 2 ^ 64) (hs : s < 2 ^ 64)
    (hk' : k' < 2 ^ 64) (hs' : s' < 2 ^ 64)
    (h : compress_state_event k s = compress_state_event k' s') :
    k = k' ∧ s = s' := by
  constructor
  · have := congrArg (fun l => u64_from_bytes (List.take 8 l)) h
    simpa [compress_take, u64_roundtrip k hk, u64_roundtrip k' hk'] using this
  · have := congrArg (fun l => u64_from_bytes (List.drop 8 l)) h
    simpa [compress_drop, u64_roundtrip s hs, u64_roundtrip s' hs'] using this

lemma load_zero (db : Store) (h : Nat) : load_shortstatehash_info db 0 h = none := rfl

lemma load_succ (db : Store) (fuel h : Nat) :
    load_shortstatehash_info db (fuel + 1) h =
      match db h with
      | none => none
      | some d =>
        match d.parent with
        | some parent =>
          match load_shortstatehash_info db fuel parent with
          | none => none
          | some response =>
            match response.getLast? with
            | none => none
            | some last =>
              some (response ++
                [⟨h, (last.full ∪ d.added) \ d.removed, d.added, d.removed⟩])
        | none => some [⟨h, d.added, d.added, d.removed⟩] := rfl

/-- Inversion principle for a successful `load_shortstatehash_info`. -/
lemma load_some_elim {db : Store} {F h : Nat} {st : List StackEntry}
    (hl : load_shortstatehash_info db F h = some st) :
    ∃ f d, F = f + 1 ∧ db h = some d ∧
      ((d.parent = none ∧ st = [⟨h, d.added, d.added, d.removed⟩]) ∨
       (∃ p resp last, d.parent = some p ∧
          load_shortstatehash_info db f p = some resp ∧
          resp.getLast? = some last ∧
          st = resp ++ [⟨h, (last.full ∪ d.added) \ d.removed, d.added, d.removed⟩])) := by
  cases F with
  | zero => simp [load_zero] at hl
  | succ f =>
    rw [load_succ] at hl
    cases hdb : db h with
    | none => rw [hdb] at hl; simp at hl
    | some d =>
      rw [hdb] at hl
      dsimp only at hl
      cases hp : d.parent with
      | none =>
        rw [hp] at hl
        dsimp only at hl
        exact ⟨f, d, rfl, rfl, Or.inl ⟨hp, by simpa using hl.symm⟩⟩
      | some p =>
        rw [hp] at hl
        dsimp only at hl
        cases hr : load_shortstatehash_info db f p with
        | none => rw [hr] at hl; simp at hl
        | some resp =>
          rw [hr] at hl
          dsimp only at hl
          cases hlast : resp.getLast? with
          | none => rw [hlast] at hl; simp at hl
          | some last =>
            rw [hlast] at hl
            dsimp only at hl
            exact ⟨f, d, rfl, rfl, Or.inr ⟨p, resp, last, hp, hr, hlast,
              by simpa using hl.symm⟩⟩

/-- The last element of a loaded stack carries the queried short_state_hash. -/
lemma load_last {db : Store} {F h : Nat} {st : List StackEntry}
    (hl : load_shortstatehash_info db F h = some st) :
    ∃ e, st.getLast? = some e ∧ e.sstatehash = h := by
  obtain ⟨f, d, rfl, hdb, hc | hc⟩ := load_some_elim hl
  · exact ⟨⟨h, d.added, d.added, d.removed⟩, by simp [hc.2], rfl⟩
  · obtain ⟨p, resp, last, _, _, _, hst⟩ := hc
    exact ⟨⟨h, (last.full ∪ d.added) \ d.removed, d.added, d.removed⟩,
      by simp [hst], rfl⟩

/-- A loaded stack is nonempty. -/
lemma load_ne_nil {db : Store} {F h : Nat} {st : List StackEntry}
    (hl : load_shortstatehash_info db F h = some st) : st ≠ [] := by
  obtain ⟨e, he, _⟩ := load_last hl
  intro hcon
  rw [hcon] at he
  simp at he

/-- More fuel never changes a successful load. -/
lemma load_mono (db : Store) : ∀ (F : Nat) {F' h : Nat} {st : List StackEntry},
    F ≤ F' → load_shortstatehash_info db F h = some st →
    load_shortstatehash_info db F' h = some st := by
  intro F
  induction F with
  | zero => intro F' h st _ hl; simp [load_zero] at hl
  | succ f ih =>
    intro F' h st hle hl
    obtain ⟨F2, rfl⟩ : ∃ F2, F' = F2 + 1 := ⟨F' - 1, by omega⟩
    rw [load_succ] at hl ⊢
    cases hdb : db h with
    | none => rw [hdb] at hl; simp at hl
    | some d =>
      rw [hdb] at hl
      dsimp only at hl ⊢
      cases hp : d.parent with
      | none =>
        rw [hp] at hl
        dsimp only at hl ⊢
        exact hl
      | some p =>
        rw [hp] at hl
        dsimp only at hl ⊢
        cases hr : load_shortstatehash_info db f p with
        | none => rw [hr] at hl; simp at hl
        | some resp =>
          rw [hr] at hl
          dsimp only at hl
          rw [ih (by omega) hr]
          dsimp only
          exact hl

/-- Two successful loads of the same hash agree, whatever the fuel. -/
lemma load_unique {db : Store} {F1 F2 h : Nat} {s1 s2 : List StackEntry}
    (h1 : load_shortstatehash_info db F1 h = some s1)
    (h2 : load_shortstatehash_info db F2 h = some s2) : s1 = s2 := by
  have e1 := load_mono db F1 (Nat.le_max_left F1 F2) h1
  have e2 := load_mono db F2 (Nat.le_max_right F1 F2) h2
  rw [e1] at e2
  exact (Option.some.injEq _ _).mp e2

/-- Every entry of a loaded stack is a key present in the store. -/
lemma load_keys (db : Store) : ∀ (F : Nat) {h : Nat} {st : List StackEntry},
    load_shortstatehash_info db F h = some st →
    ∀ e ∈ st, ∃ de, db e.sstatehash = some de := by
  intro F
  induction F with
  | zero => intro h st hl; simp [load_zero] at hl
  | succ f ih =>
    intro h st hl e he
    obtain ⟨f', d, hf, hdb, hc | hc⟩ := load_some_elim hl
    · obtain ⟨_, rfl⟩ := hc
      simp at he
      subst he
      exact ⟨d, hdb⟩
    · obtain ⟨p, resp, last, hp, hr, hlast, rfl⟩ := hc
      obtain ⟨rfl, _⟩ : f' = f ∧ True := ⟨by omega, trivial⟩
      rcases List.mem_append.mp he with hm | hm
      · exact ih hr e hm
      · simp at hm
        subst hm
        exact ⟨d, hdb⟩

/-- First loop of the merge in `save_state_from_diff` (lines 158-165 and
213-220): for each element of the pending `removed` set, remove it from the
parent's `added` working copy if present, otherwise insert it into the
parent's `removed` working copy.  The hash-set iteration is modelled as a
fold over an enumeration of the set. -/
def removedLoop : List Nat → Finset Nat → Finset Nat → Finset Nat × Finset Nat
  | [], parent_new, parent_removed => (parent_new, parent_removed)
  | r :: rest, parent_new, parent_removed =>
    if r ∈ parent_new then removedLoop rest (parent_new.erase r) parent_removed
    else removedLoop rest parent_new (insert r parent_removed)

/-- Second loop of the merge in `save_state_from_diff` (lines 167-174 and
222-229): for each element of the pending `added` set, remove it from the
parent's `removed` working copy if present, otherwise insert it into the
parent's `added` working copy. -/
def addedLoop : List Nat → Finset Nat → Finset Nat → Finset Nat × Finset Nat
  | [], parent_new, parent_removed => (parent_new, parent_removed)
  | a :: rest, parent_new, parent_removed =>
    if a ∈ parent_removed then addedLoop rest parent_new (parent_removed.erase a)
    else addedLoop rest (insert a parent_new) parent_removed

/-- The symmetric-diff fold of `save_state_from_diff`: merge the pending child
diff `(Ac, Rc)` into the popped parent's `(Ap, Rp)`, starting from working
copies of the parent's sets and running the two loops. -/
def mergeDiffs (Ac Rc Ap Rp : Finset Nat) : Finset Nat × Finset Nat :=
  let p1 := removedLoop (Rc.sort (· ≤ ·)) Ap Rp
  addedLoop (Ac.sort (· ≤ ·)) p1.1 p1.2

lemma removedLoop_spec : ∀ (l : List Nat) (an rm : Finset Nat), l.Nodup →
    removedLoop l an rm = (an \ l.toFinset, rm ∪ (l.toFinset \ an)) := by
  intro l
  induction l with
  | nil => intro an rm _; simp [removedLoop]
  | cons r rest ih =>
    intro an rm hnd
    have hr : r ∉ rest := (List.nodup_cons.mp hnd).1
    have hrest : rest.Nodup := (List.nodup_cons.mp hnd).2
    by_cases hmem : r ∈ an
    · rw [removedLoop, if_pos hmem, ih _ _ hrest, Prod.mk.injEq]
      constructor
      · ext x
        simp only [Finset.mem_sdiff, Finset.mem_erase, List.toFinset_cons,
          Finset.mem_insert, List.mem_toFinset]
        constructor
        · rintro ⟨⟨hne, hx⟩, hnx⟩
          exact ⟨hx, by tauto⟩
        · rintro ⟨hx, hnx⟩
          refine ⟨⟨?_, hx⟩, by tauto⟩
          rintro rfl
          exact hnx (Or.inl rfl)
      · ext x
        simp only [Finset.mem_union, List.toFinset_cons, Finset.mem_sdiff,
          Finset.mem_erase, Finset.mem_insert, List.mem_toFinset]
        constructor
        · rintro (hx | ⟨hx, hnx⟩)
          · exact Or.inl hx
          · refine Or.inr ⟨Or.inr hx, fun hxan => hnx ⟨?_, hxan⟩⟩
            rintro rfl
            exact hr hx
        · rintro (hx | ⟨hx | hx, hnx⟩)
          · exact Or.inl hx
          · subst hx; exact absurd hmem hnx
          · refine Or.inr ⟨hx, fun hc => hnx hc.2⟩
    · rw [removedLoop, if_neg hmem, ih _ _ hrest, Prod.mk.injEq]
      constructor
      · ext x
        simp only [Finset.mem_sdiff, List.toFinset_cons, Finset.mem_insert,
          List.mem_toFinset]
        constructor
        · rintro ⟨hx, hnx⟩
          refine ⟨hx, ?_⟩
          rintro (rfl | hc)
          · exact hmem hx
          · exact hnx hc
        · rintro ⟨hx, hnx⟩
          exact ⟨hx, fun hc => hnx (Or.inr hc)⟩
      · ext x
        rcases eq_or_ne x r with rfl | hxr
        · simp only [Finset.mem_union, Finset.mem_insert, List.toFinset_cons,
            Finset.mem_sdiff, List.mem_toFinset]
          tauto
        · simp only [Finset.mem_union, Finset.mem_insert, List.toFinset_cons,
            Finset.mem_sdiff, List.mem_toFinset]
          tauto

lemma addedLoop_spec : ∀ (l : List Nat) (an rm : Finset Nat), l.Nodup →
    addedLoop l an rm = (an ∪ (l.toFinset \ rm), rm \ l.toFinset) := by
  intro l
  induction l with
  | nil => intro an rm _; simp [addedLoop]
  | cons a rest ih =>
    intro an rm hnd
    have ha : a ∉ rest := (List.nodup_cons.mp hnd).1
    have hrest : rest.Nodup := (List.nodup_cons.mp hnd).2
    by_cases hmem : a ∈ rm
    · rw [addedLoop, if_pos hmem, ih _ _ hrest, Prod.mk.injEq]
      constructor
      · ext x
        simp only [Finset.mem_union, List.toFinset_cons, Finset.mem_sdiff,
          Finset.mem_erase, Finset.mem_insert, List.mem_toFinset]
        constructor
        · rintro (hx | ⟨hx, hnx⟩)
          · exact Or.inl hx
          · refine Or.inr ⟨Or.inr hx, fun hc => hnx ⟨?_, hc⟩⟩
            rintro rfl
            exact ha hx
        · rintro (hx | ⟨hx | hx, hnx⟩)
          · exact Or.inl hx
          · subst hx; exact absurd hmem hnx
          · exact Or.inr ⟨hx, fun hc => hnx hc.2⟩
      · ext x
        simp only [Finset.mem_sdiff, Finset.mem_erase, List.toFinset_cons,
          Finset.mem_insert, List.mem_toFinset]
        constructor
        · rintro ⟨⟨hne, hx⟩, hnx⟩
          exact ⟨hx, by tauto⟩
        · rintro ⟨hx, hnx⟩
          refine ⟨⟨?_, hx⟩, by tauto⟩
          rintro rfl
          exact hnx (Or.inl rfl)
    · rw [addedLoop, if_neg hmem, ih _ _ hrest, Prod.mk.injEq]
      constructor
      · ext x
        rcases eq_or_ne x a with rfl | hxr
        · simp only [Finset.mem_union, Finset.mem_insert, List.toFinset_cons,
            Finset.mem_sdiff, List.mem_toFinset]
          tauto
        · simp only [Finset.mem_union, Finset.mem_insert, List.toFinset_cons,
            Finset.mem_sdiff, List.mem_toFinset]
          tauto
      · ext x
        simp only [Finset.mem_sdiff, List.toFinset_cons, Finset.mem_insert,
          List.mem_toFinset]
        constructor
        · rintro ⟨hx, hnx⟩
          refine ⟨hx, ?_⟩
          rintro (rfl | hc)
          · exact hmem hx
          · exact hnx hc
        · rintro ⟨hx, hnx⟩
          exact ⟨hx, fun hc => hnx (Or.inr hc)⟩

/-- Extensional description of the merge: the merged `added` set is
`(Ap \ Rc) ∪ (Ac \ (Rp ∪ (Rc \ Ap)))` and the merged `removed` set is
`(Rp ∪ (Rc \ Ap)) \ Ac`. -/
lemma mergeDiffs_eq (Ac Rc Ap Rp : Finset Nat) :
    mergeDiffs Ac Rc Ap Rp =
      ((Ap \ Rc) ∪ (Ac \ (Rp ∪ (Rc \ Ap))), (Rp ∪ (Rc \ Ap)) \ Ac) := by
  unfold mergeDiffs
  rw [removedLoop_spec _ _ _ (Rc.sort_nodup _), Finset.sort_toFinset]
  rw [addedLoop_spec _ _ _ (Ac.sort_nodup _), Finset.sort_toFinset]

/-- Semantic content of the merge.  If the popped parent's diff `(Ap, Rp)`
satisfies invariant 2 relative to the grandparent's full state `G`, and the
pending child diff `(Ac, Rc)` satisfies invariant 2 relative to the parent's
full state `(G ∪ Ap) \ Rp`, then the merged diff again satisfies invariant 2
relative to `G`, is internally disjoint, and reconstructs the same full
state. -/
lemma mergeDiffs_spec (G Ap Rp Ac Rc : Finset Nat)
    (hApG : Disjoint Ap G) (hRpG : Rp ⊆ G)
    (hAc : Disjoint Ac ((G ∪ Ap) \ Rp)) (hRc : Rc ⊆ (G ∪ Ap) \ Rp) :
    (G ∪ (mergeDiffs Ac Rc Ap Rp).1) \ (mergeDiffs Ac Rc Ap Rp).2 =
      (((G ∪ Ap) \ Rp) ∪ Ac) \ Rc ∧
    Disjoint (mergeDiffs Ac Rc Ap Rp).1 G ∧
    (mergeDiffs Ac Rc Ap Rp).2 ⊆ G ∧
    Disjoint (mergeDiffs Ac Rc Ap Rp).1 (mergeDiffs Ac Rc Ap Rp).2 := by
  rw [mergeDiffs_eq]
  have hApG' : ∀ x, x ∈ Ap → x ∉ G := fun x hx => Finset.disjoint_left.mp hApG hx
  have hRpG' : ∀ x, x ∈ Rp → x ∈ G := fun x hx => hRpG hx
  have hAc' : ∀ x, x ∈ Ac → ¬((x ∈ G ∨ x ∈ Ap) ∧ x ∉ Rp) := by
    intro x hx hc
    exact Finset.disjoint_left.mp hAc hx (by simp [Finset.mem_sdiff, hc.2]; tauto)
  have hRc' : ∀ x, x ∈ Rc → (x ∈ G ∨ x ∈ Ap) ∧ x ∉ Rp := by
    intro x hx
    have := hRc hx
    simp only [Finset.mem_sdiff, Finset.mem_union] at this
    exact this
  refine ⟨?_, ?_, ?_, ?_⟩
  · ext x
    have h1 := hApG' x
    have h2 := hRpG' x
    have h3 := hAc' x
    have h4 := hRc' x
    simp only [Finset.mem_sdiff, Finset.mem_union]
    tauto
  · rw [Finset.disjoint_left]
    intro x hx hxG
    have h1 := hApG' x
    have h3 := hAc' x
    have h4 := hRc' x
    simp only [Finset.mem_union, Finset.mem_sdiff] at hx
    tauto
  · intro x hx
    have h1 := hApG' x
    have h2 := hRpG' x
    have h4 := hRc' x
    simp only [Finset.mem_sdiff, Finset.mem_union] at hx
    tauto
  · rw [Finset.disjoint_left]
    intro x hx1 hx2
    have h1 := hApG' x
    have h2 := hRpG' x
    simp only [Finset.mem_union, Finset.mem_sdiff] at hx1 hx2
    tauto

/-- `save_state_from_diff` (lines 143-251).  The returned list is the sequence
of `db.save_statediff` writes the call performs.  Branches, in source order:
if more than three parent layers, pop the deepest parent, merge the pending
diff into it and recurse; if there is no parent layer, write a parentless
record; otherwise pop the parent and either (size test) merge and recurse, or
write the pending diff with the popped parent as its parent. -/
def save_state_from_diff (shortstatehash : Nat)
    (statediffnew statediffremoved : Finset Nat) (diff_to_sibling : Nat)
    (parent_states : List StackEntry) : List (Nat × StateDiff) :=
  if h3 : 3 < parent_states.length then
    let parent := parent_states.getLastD ⟨0, ∅, ∅, ∅⟩
    let m := mergeDiffs statediffnew statediffremoved parent.added parent.removed
    save_state_from_diff shortstatehash m.1 m.2
      (statediffnew.card + statediffremoved.card) parent_states.dropLast
  else if he : parent_states = [] then
    [(shortstatehash, ⟨none, statediffnew, statediffremoved⟩)]
  else
    let parent := parent_states.getLast he
    if (statediffnew.card + statediffremoved.card) *
          (statediffnew.card + statediffremoved.card) ≥
        2 * diff_to_sibling * (parent.added.card + parent.removed.card) then
      let m := mergeDiffs statediffnew statediffremoved parent.added parent.removed
      save_state_from_diff shortstatehash m.1 m.2
        (statediffnew.card + statediffremoved.card) parent_states.dropLast
    else
      [(shortstatehash, ⟨some parent.sstatehash, statediffnew, statediffremoved⟩)]
termination_by parent_states.length
decreasing_by
  · rw [List.length_dropLast]
    omega
  · rw [List.length_dropLast]
    have : 0 < parent_states.length := List.length_pos.mpr he
    omega

lemma sssd_nil (ssh : Nat) (dnew drem : Finset Nat) (dts : Nat) :
    save_state_from_diff ssh dnew drem dts [] =
      [(ssh, ⟨none, dnew, drem⟩)] := by
  unfold save_state_from_diff
  simp

lemma sssd_deep (ssh : Nat) (dnew drem : Finset Nat) (dts : Nat)
    (l : List StackEntry) (e : StackEntry) (h : 3 < (l ++ [e]).length) :
    save_state_from_diff ssh dnew drem dts (l ++ [e]) =
      save_state_from_diff ssh (mergeDiffs dnew drem e.added e.removed).1
        (mergeDiffs dnew drem e.added e.removed).2
        (dnew.card + drem.card) l := by
  conv_lhs => rw [save_state_from_diff]
  rw [dif_pos h]
  simp [List.getLastD_concat, List.dropLast_concat]

lemma sssd_last (ssh : Nat) (dnew drem : Finset Nat) (dts : Nat)
    (l : List StackEntry) (e : StackEntry) (h : (l ++ [e]).length ≤ 3) :
    save_state_from_diff ssh dnew drem dts (l ++ [e]) =
      if (dnew.card + drem.card) * (dnew.card + drem.card) ≥
          2 * dts * (e.added.card + e.removed.card) then
        save_state_from_diff ssh (mergeDiffs dnew drem e.added e.removed).1
          (mergeDiffs dnew drem e.added e.removed).2
          (dnew.card + drem.card) l
      else
        [(ssh, ⟨some e.sstatehash, dnew, drem⟩)] := by
  have hne : l ++ [e] ≠ [] := by simp
  conv_lhs => rw [save_state_from_diff]
  rw [dif_neg (by omega), dif_neg hne]
  simp [List.getLast_concat, List.dropLast_concat]

/-- The full state at the top of a (root-first) parent stack, or the ambient
base state `g` when the stack is empty. -/
def lastFull (g : Finset Nat) (l : List StackEntry) : Finset Nat :=
  match l.getLast? with
  | some e => e.full
  | none => g

lemma lastFull_nil (g : Finset Nat) : lastFull g [] = g := rfl

lemma lastFull_concat (g : Finset Nat) (l : List StackEntry) (e : StackEntry) :
    lastFull g (l ++ [e]) = e.full := by
  simp [lastFull, List.getLast?_concat]

lemma lastFull_cons (g : Finset Nat) (x : StackEntry) (xs : List StackEntry) :
    lastFull g (x :: xs) = lastFull x.full xs := by
  cases xs with
  | nil => simp [lastFull]
  | cons y ys => simp [lastFull, List.getLast?]

/-- Invariants 1 and 2 of the spec, section 3, along a root-first stack whose
base full state is `g`: each entry reconstructs from the previous full state,
never re-adds a present element and never removes an absent one. -/
def ChainOK : Finset Nat → List StackEntry → Prop
  | _, [] => True
  | g, e :: rest =>
    e.full = (g ∪ e.added) \ e.removed ∧ Disjoint e.added g ∧ e.removed ⊆ g ∧
      ChainOK e.full rest

lemma chainOK_concat (g : Finset Nat) (l : List StackEntry) (e : StackEntry) :
    ChainOK g (l ++ [e]) ↔
      ChainOK g l ∧ e.full = (lastFull g l ∪ e.added) \ e.removed ∧
        Disjoint e.added (lastFull g l) ∧ e.removed ⊆ lastFull g l := by
  induction l generalizing g with
  | nil => simp [ChainOK, lastFull_nil]
  | cons x xs ih =>
    simp only [List.cons_append, ChainOK, List.append_eq, ih x.full, lastFull_cons]
    tauto

lemma take_concat {α : Type} (t : Nat) (l : List α) (e : α) (h : t ≤ l.length) :
    (l ++ [e]).take t = l.take t := by
  rw [List.take_append_eq_append_take]
  have : t - l.length = 0 := by omega
  simp [this]

lemma eq_nil_or_append {α : Type} (l : List α) :
    l = [] ∨ ∃ l2 e, l = l2 ++ [e] := by
  rcases List.eq_nil_or_concat l with h | ⟨l2, e, h⟩
  · exact Or.inl h
  · exact Or.inr ⟨l2, e, by simpa [List.concat_eq_append] using h⟩

/-- Structure of the writes of `save_state_from_diff`: exactly one
`save_statediff` write is performed, keyed by the `shortstatehash` argument,
and its parent field is the short_state_hash of the last entry of a prefix of
the parent stack of length at most 3 (or `none` for the empty prefix). -/
lemma sssd_structure (ssh : Nat) : ∀ (n : Nat) (ps : List StackEntry),
    ps.length ≤ n → ∀ (dnew drem : Finset Nat) (dts : Nat),
    ∃ d t, save_state_from_diff ssh dnew drem dts ps = [(ssh, d)] ∧
      t ≤ ps.length ∧ t ≤ 3 ∧
      d.parent = ((ps.take t).getLast?).map StackEntry.sstatehash := by
  intro n
  induction n with
  | zero =>
    intro ps hlen dnew drem dts
    have : ps = [] := List.length_eq_zero.mp (by omega)
    subst this
    exact ⟨⟨none, dnew, drem⟩, 0, by rw [sssd_nil], by simp, by simp, by simp⟩
  | succ n ih =>
    intro ps hlen dnew drem dts
    rcases eq_nil_or_append ps with rfl | ⟨l, e, rfl⟩
    · exact ⟨⟨none, dnew, drem⟩, 0, by rw [sssd_nil], by simp, by simp, by simp⟩
    · have hllen : l.length ≤ n := by
        have := hlen
        simp [List.length_append] at this
        omega
      by_cases h3 : 3 < (l ++ [e]).length
      · rw [sssd_deep ssh dnew drem dts l e h3]
        obtain ⟨d, t, h1, h2, h3', h4⟩ := ih l hllen
          (mergeDiffs dnew drem e.added e.removed).1
          (mergeDiffs dnew drem e.added e.removed).2 (dnew.card + drem.card)
        refine ⟨d, t, h1, ?_, h3', ?_⟩
        · simp [List.length_append]
          omega
        · rw [take_concat t l e h2]
          exact h4
      · rw [sssd_last ssh dnew drem dts l e (by omega)]
        by_cases hge : (dnew.card + drem.card) * (dnew.card + drem.card) ≥
            2 * dts * (e.added.card + e.removed.card)
        · rw [if_pos hge]
          obtain ⟨d, t, h1, h2, h3', h4⟩ := ih l hllen
            (mergeDiffs dnew drem e.added e.removed).1
            (mergeDiffs dnew drem e.added e.removed).2 (dnew.card + drem.card)
          refine ⟨d, t, h1, ?_, h3', ?_⟩
          · simp [List.length_append]
            omega
          · rw [take_concat t l e h2]
            exact h4
        · rw [if_neg hge]
          refine ⟨⟨some e.sstatehash, dnew, drem⟩, (l ++ [e]).length, rfl,
            le_refl _, by omega, ?_⟩
          rw [List.take_length]
          simp [List.getLast?_concat]

/-- Semantic description of the writes of `save_state_from_diff` on a stack
satisfying invariants 1-2: the single written record reconstructs, on top of
the full state of the surviving prefix, exactly the state the pending diff
described on top of the original stack, and satisfies invariant 2 relative to
that prefix. -/
lemma sssd_correct (ssh : Nat) : ∀ (n : Nat) (ps : List StackEntry),
    ps.length ≤ n → ∀ (dnew drem : Finset Nat) (dts : Nat),
    ChainOK ∅ ps → Disjoint dnew (lastFull ∅ ps) → drem ⊆ lastFull ∅ ps →
    ∃ d t, save_state_from_diff ssh dnew drem dts ps = [(ssh, d)] ∧
      t ≤ ps.length ∧ t ≤ 3 ∧
      d.parent = ((ps.take t).getLast?).map StackEntry.sstatehash ∧
      (lastFull ∅ (ps.take t) ∪ d.added) \ d.removed =
        (lastFull ∅ ps ∪ dnew) \ drem ∧
      Disjoint d.added (lastFull ∅ (ps.take t)) ∧
      d.removed ⊆ lastFull ∅ (ps.take t) := by
  intro n
  induction n with
  | zero =>
    intro ps hlen dnew drem dts _ hdisj hsub
    have : ps = [] := List.length_eq_zero.mp (by omega)
    subst this
    exact ⟨⟨none, dnew, drem⟩, 0, by rw [sssd_nil], by simp, by simp, by simp,
      rfl, by simpa [lastFull_nil] using hdisj, by simpa [lastFull_nil] using hsub⟩
  | succ n ih =>
    intro ps hlen dnew drem dts hok hdisj hsub
    rcases eq_nil_or_append ps with rfl | ⟨l, e, rfl⟩
    · exact ⟨⟨none, dnew, drem⟩, 0, by rw [sssd_nil], by simp, by simp, by simp,
        rfl, by simpa [lastFull_nil] using hdisj, by simpa [lastFull_nil] using hsub⟩
    · have hllen : l.length ≤ n := by
        have := hlen
        simp [List.length_append] at this
        omega
      rw [chainOK_concat] at hok
      obtain ⟨hokl, hefull, hedisj, hesub⟩ := hok
      rw [lastFull_concat] at hdisj hsub
      have hspec := mergeDiffs_spec (lastFull ∅ l) e.added e.removed dnew drem
        hedisj hesub (by rw [← hefull]; exact hdisj) (by rw [← hefull]; exact hsub)
      obtain ⟨hfull_eq, hmdisj, hmsub, _⟩ := hspec
      have hmain : ∀ dts', ∃ d t,
          save_state_from_diff ssh (mergeDiffs dnew drem e.added e.removed).1
            (mergeDiffs dnew drem e.added e.removed).2 dts' l = [(ssh, d)] ∧
          t ≤ (l ++ [e]).length ∧ t ≤ 3 ∧
          d.parent = (((l ++ [e]).take t).getLast?).map StackEntry.sstatehash ∧
          (lastFull ∅ ((l ++ [e]).take t) ∪ d.added) \ d.removed =
            (lastFull ∅ (l ++ [e]) ∪ dnew) \ drem ∧
          Disjoint d.added (lastFull ∅ ((l ++ [e]).take t)) ∧
          d.removed ⊆ lastFull ∅ ((l ++ [e]).take t) := by
        intro dts'
        obtain ⟨d, t, h1, h2, h3', h4, h5, h6, h7⟩ := ih l hllen
          (mergeDiffs dnew drem e.added e.removed).1
          (mergeDiffs dnew drem e.added e.removed).2 dts' hokl hmdisj hmsub
        refine ⟨d, t, h1, by simp [List.length_append]; omega, h3', ?_, ?_, ?_, ?_⟩
        · rw [take_concat t l e h2]; exact h4
        · rw [take_concat t l e h2, h5, hfull_eq, ← hefull, lastFull_concat]
        · rw [take_concat t l e h2]; exact h6
        · rw [take_concat t l e h2]; exact h7
      by_cases h3 : 3 < (l ++ [e]).length
      · rw [sssd_deep ssh dnew drem dts l e h3]
        exact hmain (dnew.card + drem.card)
      · rw [sssd_last ssh dnew drem dts l e (by omega)]
        by_cases hge : (dnew.card + drem.card) * (dnew.card + drem.card) ≥
            2 * dts * (e.added.card + e.removed.card)
        · rw [if_pos hge]
          exact hmain (dnew.card + drem.card)
        · rw [if_neg hge]
          refine ⟨⟨some e.sstatehash, dnew, drem⟩, (l ++ [e]).length, rfl,
            le_refl _, by omega, ?_, ?_, ?_, ?_⟩
          · rw [List.take_length]
            simp [List.getLast?_concat]
          · rw [List.take_length]
          · rw [List.take_length, lastFull_concat]
            exact hdisj
          · rw [List.take_length, lastFull_concat]
            exact hsub

lemma load_build_root {db : Store} {h : Nat} {d : StateDiff} (hdb : db h = some d)
    (hp : d.parent = none) (f : Nat) :
    load_shortstatehash_info db (f + 1) h =
      some [⟨h, d.added, d.added, d.removed⟩] := by
  rw [load_succ, hdb]
  dsimp only
  rw [hp]

lemma load_build_push {db : Store} {h q f : Nat} {d : StateDiff}
    {resp : List StackEntry} {last : StackEntry}
    (hdb : db h = some d) (hp : d.parent = some q)
    (hr : load_shortstatehash_info db f q = some resp)
    (hlast : resp.getLast? = some last) :
    load_shortstatehash_info db (f + 1) h =
      some (resp ++ [⟨h, (last.full ∪ d.added) \ d.removed, d.added, d.removed⟩]) := by
  rw [load_succ, hdb]
  dsimp only
  rw [hp]
  dsimp only
  rw [hr]
  dsimp only
  rw [hlast]

/-- Every ancestor layer of a loaded stack is itself loadable, and its stack
is the corresponding prefix of the loaded stack. -/
lemma load_prefix (db : Store) : ∀ (F : Nat) {p : Nat} {ps : List StackEntry},
    load_shortstatehash_info db F p = some ps →
    ∀ (t : Nat) (e : StackEntry), t ≤ ps.length →
    (ps.take t).getLast? = some e →
    ∃ F2, load_shortstatehash_info db F2 e.sstatehash = some (ps.take t) := by
  intro F
  induction F with
  | zero => intro p ps hl; simp [load_zero] at hl
  | succ f ih =>
    intro p ps hl t e hle hget
    obtain ⟨f', d, hf, hdb, hc⟩ := load_some_elim hl
    obtain ⟨rfl⟩ : f' = f := by omega
    rcases hc with ⟨hp, rfl⟩ | ⟨q, resp, last, hp, hr, hlast, rfl⟩
    · 
      match t with
      | 0 => simp at hget
      | t' + 1 =>
        have ht' : t' = 0 := by simp at hle; omega
        subst ht'
        have he : e = ⟨p, d.added, d.added, d.removed⟩ := by
          simp [List.take_succ_cons] at hget
          exact hget.symm
        subst he
        exact ⟨f + 1, by simpa using hl⟩
    · by_cases hts : t ≤ resp.length
      · rw [take_concat t resp _ hts] at hget ⊢
        exact ih hr t e hts hget
      · have ht : t = resp.length + 1 := by
          simp [List.length_append] at hle
          omega
        subst ht
        rw [show resp.length + 1 = (resp ++
          [(⟨p, (last.full ∪ d.added) \ d.removed, d.added, d.removed⟩ : StackEntry)]).length
          by simp, List.take_length] at hget ⊢
        rw [List.getLast?_concat] at hget
        obtain ⟨rfl⟩ : e = ⟨p, (last.full ∪ d.added) \ d.removed, d.added, d.removed⟩ :=
          by simpa using hget.symm
        exact ⟨f + 1, hl⟩

/-- Writing a record under a key that does not occur in a loaded stack does
not change that load. -/
lemma load_frame (db : Store) (x : Nat) (dx : StateDiff) :
    ∀ (F : Nat) {h : Nat} {st : List StackEntry},
    load_shortstatehash_info db F h = some st →
    (∀ e ∈ st, e.sstatehash ≠ x) →
    load_shortstatehash_info (save_statediff db x dx) F h = some st := by
  intro F
  induction F with
  | zero => intro h st hl; simp [load_zero] at hl
  | succ f ih =>
    intro h st hl hnot
    obtain ⟨f', d, hf, hdb, hc⟩ := load_some_elim hl
    obtain ⟨rfl⟩ : f' = f := by omega
    rcases hc with ⟨hp, rfl⟩ | ⟨q, resp, last, hp, hr, hlast, rfl⟩
    · have hne : h ≠ x := by
        have := hnot ⟨h, d.added, d.added, d.removed⟩ (by simp)
        simpa using this
      have hdb' : save_statediff db x dx h = some d := by
        simp [save_statediff, hne, hdb]
      rw [load_build_root hdb' hp f]
    · have hne : h ≠ x := by
        have := hnot ⟨h, (last.full ∪ d.added) \ d.removed, d.added, d.removed⟩
          (by simp)
        simpa using this
      have hdb' : save_statediff db x dx h = some d := by
        simp [save_statediff, hne, hdb]
      have hr' := ih hr (fun e he => hnot e (List.mem_append_left _ he))
      rw [load_build_push hdb' hp hr' hlast]

/-- Every parent reference stored in the diff store points at a stored key. -/
def ClosedRefs (db : Store) : Prop :=
  ∀ h d, db h = some d → ∀ q, d.parent = some q → ∃ dq, db q = some dq

/-- In a store with closed parent references, a load that does not start at a
freshly written key is unaffected by that write. -/
lemma load_frame_rev (db : Store) (x : Nat) (dx : StateDiff)
    (hclosed : ClosedRefs db) (hfresh : db x = none) :
    ∀ (F : Nat) {h : Nat} {st : List StackEntry}, h ≠ x →
    load_shortstatehash_info (save_statediff db x dx) F h = some st →
    load_shortstatehash_info db F h = some st := by
  intro F
  induction F with
  | zero => intro h st _ hl; simp [load_zero] at hl
  | succ f ih =>
    intro h st hne hl
    obtain ⟨f', d, hf, hdb', hc⟩ := load_some_elim hl
    obtain ⟨rfl⟩ : f' = f := by omega
    have hdb : db h = some d := by
      rw [save_statediff, if_neg hne] at hdb'
      exact hdb'
    rcases hc with ⟨hp, rfl⟩ | ⟨q, resp, last, hp, hr, hlast, rfl⟩
    · rw [load_build_root hdb hp f]
    · have hqx : q ≠ x := by
        obtain ⟨dq, hdq⟩ := hclosed h d hdb q hp
        intro hcon
        rw [hcon, hfresh] at hdq
        cases hdq
      have hr' := ih hqx hr
      rw [load_build_push hdb hp hr' hlast]

/-- `save_state` (lines 255-307).  The database is read-only here: the room's
previous short_state_hash and the result of `get_or_create_shortstatehash`
(the pair `(new_shortstatehash, already_existed)`, modelled from the spec,
sections 4.1 and 4.6, since `calculate_hash` and the short-ID registry are
not under `src/`) are inputs.  Returns the triple the source returns plus the
list of diff-store writes performed, or `none` when loading the previous
stack fails. -/
def save_state (db : Store) (previous_shortstatehash : Option Nat)
    (mint : Nat × Bool) (fuel : Nat) (new_state_ids_compressed : Finset Nat) :
    Option (Nat × Finset Nat × Finset Nat × List (Nat × StateDiff)) :=
  if some mint.1 = previous_shortstatehash then
    some (mint.1, ∅, ∅, [])
  else
    match (match previous_shortstatehash with
           | none => some []
           | some p => load_shortstatehash_info db fuel p) with
    | none => none
    | some states_parents =>
      let diffs := match states_parents.getLast? with
        | some parent_stateinfo =>
          (new_state_ids_compressed \ parent_stateinfo.full,
           parent_stateinfo.full \ new_state_ids_compressed)
        | none => (new_state_ids_compressed, (∅ : Finset Nat))
      if mint.2 then
        some (mint.1, diffs.1, diffs.2, [])
      else
        some (mint.1, diffs.1, diffs.2,
          save_state_from_diff mint.1 diffs.1 diffs.2 2 states_parents)

/-- The stateinfo cache, keyed by short_state_hash.  An LRU cache of any
capacity and access history is some partial map of this shape; eviction only
removes entries. -/
def Cache : Type := Nat → Option (List StackEntry)

/-- Insertion into the stateinfo cache (lines 84-87 and 92-95). -/
def cacheInsert (c : Cache) (h : Nat) (v : List StackEntry) : Cache :=
  fun k => if k = h then some v else c k

/-- `load_shortstatehash_info` with the cache (lines 57-98): on a hit return
the cached clone; on a miss walk the diffs as in the uncached version and
insert the built stack under the queried key.  Returns the result together
with the updated cache. -/
def load_cached (db : Store) : Nat → Cache → Nat → Option (List StackEntry) × Cache
  | 0, c, _ => (none, c)
  | Nat.succ fuel, c, shortstatehash =>
    match c shortstatehash with
    | some r => (some r, c)
    | none =>
      match db shortstatehash with
      | none => (none, c)
      | some d =>
        match d.parent with
        | some parent =>
          match load_cached db fuel c parent with
          | (none, c1) => (none, c1)
          | (some response, c1) =>
            match response.getLast? with
            | none => (none, c1)
            | some last =>
              (some (response ++
                 [⟨shortstatehash, (last.full ∪ d.added) \ d.removed, d.added, d.removed⟩]),
               cacheInsert c1 shortstatehash (response ++
                 [⟨shortstatehash, (last.full ∪ d.added) \ d.removed, d.added, d.removed⟩]))
        | none =>
          (some [⟨shortstatehash, d.added, d.added, d.removed⟩],
           cacheInsert c shortstatehash [⟨shortstatehash, d.added, d.added, d.removed⟩])

lemma load_cached_succ (db : Store) (fuel : Nat) (c : Cache) (h : Nat) :
    load_cached db (fuel + 1) c h =
      match c h with
      | some r => (some r, c)
      | none =>
        match db h with
        | none => (none, c)
        | some d =>
          match d.parent with
          | some parent =>
            match load_cached db fuel c parent with
            | (none, c1) => (none, c1)
            | (some response, c1) =>
              match response.getLast? with
              | none => (none, c1)
              | some last =>
                (some (response ++
                   [⟨h, (last.full ∪ d.added) \ d.removed, d.added, d.removed⟩]),
                 cacheInsert c1 h (response ++
                   [⟨h, (last.full ∪ d.added) \ d.removed, d.added, d.removed⟩]))
          | none =>
            (some [⟨h, d.added, d.added, d.removed⟩],
             cacheInsert c h [⟨h, d.added, d.added, d.removed⟩]) := rfl

/-- A cache state is coherent when every entry equals what the uncached
recursive walk computes for its key. -/
def Coherent (db : Store) (c : Cache) : Prop :=
  ∀ h v, c h = some v → ∃ F, load_shortstatehash_info db F h = some v

/-- The empty cache is coherent. -/
lemma coherent_empty (db : Store) : Coherent db (fun _ => none) := by
  intro h v hv
  cases hv

/-- Evicting arbitrary entries (any LRU pressure) preserves coherence. -/
lemma coherent_evict (db : Store) (c c' : Cache)
    (hsub : ∀ k, c' k = none ∨ c' k = c k) (hcoh : Coherent db c) :
    Coherent db c' := by
  intro h v hv
  rcases hsub h with hk | hk
  · rw [hk] at hv; cases hv
  · exact hcoh h v (hk ▸ hv)

/-- On a coherent cache, the cached load returns exactly the stack the
uncached walk computes, and leaves the cache coherent. -/
lemma load_cached_correct (db : Store) : ∀ (F : Nat) (c : Cache) {h : Nat}
    {st : List StackEntry}, Coherent db c →
    load_shortstatehash_info db F h = some st →
    (load_cached db F c h).1 = some st ∧ Coherent db (load_cached db F c h).2 := by
  intro F
  induction F with
  | zero => intro c h st _ hl; simp [load_zero] at hl
  | succ f ih =>
    intro c h st hcoh hl
    obtain ⟨f', d, hf, hdb, hc⟩ := load_some_elim hl
    obtain ⟨rfl⟩ : f' = f := by omega
    rw [load_cached_succ]
    cases hch : c h with
    | some v =>
      obtain ⟨F0, hF0⟩ := hcoh h v hch
      have hv : v = st := load_unique hF0 hl
      subst hv
      exact ⟨rfl, hcoh⟩
    | none =>
      rcases hc with ⟨hp, rfl⟩ | ⟨q, resp, last, hp, hr, hlast, rfl⟩
      · rw [hdb]
        dsimp only
        rw [hp]
        refine ⟨rfl, ?_⟩
        intro k v hkv
        simp only [cacheInsert] at hkv
        by_cases hk : k = h
        · rw [if_pos hk] at hkv
          obtain ⟨rfl⟩ : v = [(⟨h, d.added, d.added, d.removed⟩ : StackEntry)] :=
            by simpa using hkv.symm
          exact ⟨f + 1, hk ▸ hl⟩
        · rw [if_neg hk] at hkv
          exact hcoh k v hkv
      · obtain ⟨hres, hcoh1⟩ := ih c hcoh hr
        rw [hdb]
        dsimp only
        rw [hp]
        dsimp only
        rcases hpair : load_cached db f c q with ⟨r1, c1⟩
        rw [hpair] at hres hcoh1
        dsimp only at hres hcoh1
        subst hres
        dsimp only
        rw [hlast]
        refine ⟨rfl, ?_⟩
        intro k v hkv
        simp only [cacheInsert] at hkv
        by_cases hk : k = h
        · rw [if_pos hk] at hkv
          have : v = resp ++
              [(⟨h, (last.full ∪ d.added) \ d.removed, d.added, d.removed⟩ :
                StackEntry)] := by simpa using hkv.symm
          subst this
          exact ⟨f + 1, hk ▸ hl⟩
        · rw [if_neg hk] at hkv
          exact hcoh1 k v hkv

lemma save_state_unfold (db : Store) (prev : Option Nat) (mint : Nat × Bool)
    (F : Nat) (S : Finset Nat) :
    save_state db prev mint F S =
      if some mint.1 = prev then
        some (mint.1, ∅, ∅, [])
      else
        match (match prev with
               | none => some []
               | some p => load_shortstatehash_info db F p) with
        | none => none
        | some states_parents =>
          let diffs := match states_parents.getLast? with
            | some parent_stateinfo =>
              (S \ parent_stateinfo.full, parent_stateinfo.full \ S)
            | none => (S, (∅ : Finset Nat))
          if mint.2 then
            some (mint.1, diffs.1, diffs.2, [])
          else
            some (mint.1, diffs.1, diffs.2,
              save_state_from_diff mint.1 diffs.1 diffs.2 2 states_parents) := rfl

lemma applyWrites_nil (db : Store) : applyWrites db [] = db := rfl

lemma applyWrites_single (db : Store) (k : Nat) (d : StateDiff) :
    applyWrites db [(k, d)] = save_statediff db k d := rfl

/-- The two store invariants the depth-bound argument maintains: parent
references are closed, and every loadable stack has at most four layers. -/
def Good (db : Store) : Prop :=
  ClosedRefs db ∧ ∀ (F h : Nat) (st : List StackEntry),
    load_shortstatehash_info db F h = some st → st.length ≤ 4

lemma good_empty : Good emptyStore := by
  constructor
  · intro h d hd
    simp [emptyStore] at hd
  · intro F h st hl
    obtain ⟨f, d, _, hdb, _⟩ := load_some_elim hl
    simp [emptyStore] at hdb

/-- Inserting a fresh record whose parent is absent or points at a loadable
chain of at most three layers preserves `Good`. -/
lemma good_insert (db : Store) (hnew : Nat) (d : StateDiff) (hgood : Good db)
    (hfresh : db hnew = none)
    (hpar : d.parent = none ∨ ∃ q stq F2, d.parent = some q ∧
      load_shortstatehash_info db F2 q = some stq ∧ stq.length ≤ 3) :
    Good (save_statediff db hnew d) := by
  constructor
  · intro h dd hdd q hq
    by_cases hqn : q = hnew
    · exact ⟨d, by simp [save_statediff, hqn]⟩
    · by_cases hh : h = hnew
      · subst hh
        have hdd' : dd = d := by
          simp [save_statediff] at hdd
          exact hdd.symm
        subst hdd'
        rcases hpar with hnone | ⟨q', stq, F2, hq', hload, _⟩
        · rw [hnone] at hq; cases hq
        · rw [hq'] at hq
          obtain ⟨rfl⟩ : q' = q := by simpa using hq
          obtain ⟨f2, dq, _, hdbq, _⟩ := load_some_elim hload
          exact ⟨dq, by simp [save_statediff, hqn, hdbq]⟩
      · have hdd' : db h = some dd := by
          simp [save_statediff, hh] at hdd
          exact hdd
        obtain ⟨dq, hdq⟩ := hgood.1 h dd hdd' q hq
        exact ⟨dq, by simp [save_statediff, hqn, hdq]⟩
  · intro F h st hl
    by_cases hh : h = hnew
    · obtain ⟨f, dd, rfl, hdb', hc⟩ := load_some_elim hl
      have hdd : dd = d := by
        simp [save_statediff, hh] at hdb'
        exact hdb'.symm
      subst hdd
      rcases hc with ⟨hp, rfl⟩ | ⟨q, resp, last, hp, hr, hlast, rfl⟩
      · simp
      · rcases hpar with hnone | ⟨q', stq, F2, hq', hload, hlen⟩
        · rw [hnone] at hp; cases hp
        · rw [hq'] at hp
          obtain ⟨rfl⟩ : q' = q := by simpa using hp
          have hqne : q ≠ hnew := by
            obtain ⟨f2, dq, _, hdbq, _⟩ := load_some_elim hload
            intro hcon
            rw [hcon, hfresh] at hdbq
            cases hdbq
          have hr' := load_frame_rev db hnew dd hgood.1 hfresh f hqne hr
          have : resp = stq := load_unique hr' hload
          subst this
          simp [List.length_append]
          omega
    · exact hgood.2 F h st (load_frame_rev db hnew d hgood.1 hfresh F hh hl)

/-- The diff stores reachable from the empty store by `save_state` commits
(modelled from the spec, section 4.6: the short-ID allocator hands the
committer a fresh `new_shortstatehash` with `already_existed = false`). -/
inductive Reachable : Store → Prop where
  | empty : Reachable emptyStore
  | commit (db : Store) (prev : Option Nat) (hnew F : Nat) (S A R : Finset Nat)
      (ws : List (Nat × StateDiff)) : Reachable db → db hnew = none →
      save_state db prev (hnew, false) F S = some (hnew, A, R, ws) →
      Reachable (applyWrites db ws)

lemma good_commit (db : Store) (prev : Option Nat) (hnew F : Nat)
    (S A R : Finset Nat) (ws : List (Nat × StateDiff)) (hgood : Good db)
    (hfresh : db hnew = none)
    (hsave : save_state db prev (hnew, false) F S = some (hnew, A, R, ws)) :
    Good (applyWrites db ws) := by
  rw [save_state_unfold] at hsave
  by_cases hsame : some (hnew, false).1 = prev
  · rw [if_pos hsame] at hsave
    obtain ⟨_, _, _, hws⟩ : hnew = hnew ∧ ∅ = A ∧ ∅ = R ∧ [] = ws := by
      simpa using hsave
    rw [← hws, applyWrites_nil]
    exact hgood
  · rw [if_neg hsame] at hsave
    cases prev with
    | none =>
      dsimp only at hsave
      obtain ⟨_, _, _, hws⟩ :
          hnew = hnew ∧ S = A ∧ ∅ = R ∧
            save_state_from_diff hnew S ∅ 2 [] = ws := by
        simpa using hsave
      rw [← hws, sssd_nil, applyWrites_single]
      exact good_insert db hnew ⟨none, S, ∅⟩ hgood hfresh (Or.inl rfl)
    | some p =>
      dsimp only at hsave
      cases hload : load_shortstatehash_info db F p with
      | none =>
        rw [hload] at hsave
        simp at hsave
      | some ps =>
        rw [hload] at hsave
        dsimp only at hsave
        obtain ⟨dd, t, heq, ht1, ht3, hdpar⟩ :=
          sssd_structure hnew ps.length ps (le_refl _)
            (match ps.getLast? with
             | some e1 => (S \ e1.full, e1.full \ S)
             | none => (S, (∅ : Finset Nat))).1
            (match ps.getLast? with
             | some e1 => (S \ e1.full, e1.full \ S)
             | none => (S, (∅ : Finset Nat))).2 2
        rw [heq] at hsave
        obtain ⟨_, _, _, hws⟩ : hnew = hnew ∧ _ ∧ _ ∧ [(hnew, dd)] = ws := by
          simpa using hsave
        rw [← hws, applyWrites_single]
        refine good_insert db hnew dd hgood hfresh ?_
        cases hget : (ps.take t).getLast? with
        | none =>
          rw [hget] at hdpar
          exact Or.inl hdpar
        | some e1 =>
          rw [hget] at hdpar
          obtain ⟨F2, hload2⟩ := load_prefix db F hload t e1 ht1 hget
          refine Or.inr ⟨e1.sstatehash, ps.take t, F2, by simpa using hdpar,
            hload2, ?_⟩
          rw [List.length_take]
          omega

/-- Every reachable diff store satisfies the two store invariants. -/
lemma reachable_good (db : Store) (h : Reachable db) : Good db := by
  induction h with
  | empty => exact good_empty
  | commit db prev hnew F S A R ws hreach hfresh hsave ih =>
    exact good_commit db prev hnew F S A R ws ih hfresh hsave

lemma lastFull_eq {g : Finset Nat} {l : List StackEntry} {e : StackEntry}
    (h : l.getLast? = some e) : lastFull g l = e.full := by
  unfold lastFull
  rw [h]

lemma lastFull_of_none {g : Finset Nat} {l : List StackEntry}
    (h : l.getLast? = none) : lastFull g l = g := by
  unfold lastFull
  rw [h]

/-- Applying the diff computed by the committer restores the submitted set:
`(B ∪ (S \ B)) \ (B \ S) = S`. -/
lemma union_sdiff_restore (B S : Finset Nat) : (B ∪ (S \ B)) \ (B \ S) = S := by
  ext x
  simp only [Finset.mem_sdiff, Finset.mem_union]
  tauto

/-- Commit round-trip: committing a state set `S` on top of a loaded parent
stack satisfying invariants 1-2 writes a single record for the fresh
short_state_hash, and reloading it yields a stack whose last element's full
state is exactly `S`. -/
lemma save_state_roundtrip (db : Store) (F p hnew : Nat) (S : Finset Nat)
    (ps : List StackEntry)
    (hload : load_shortstatehash_info db F p = some ps)
    (hok : ChainOK ∅ ps)
    (hfresh : db hnew = none) :
    ∃ d st F2,
      save_state db (some p) (hnew, false) F S =
        some (hnew, S \ lastFull ∅ ps, lastFull ∅ ps \ S, [(hnew, d)]) ∧
      load_shortstatehash_info (save_statediff db hnew d) F2 hnew = some st ∧
      (st.getLast?).map StackEntry.full = some S := by
  obtain ⟨e, hlaste, helast⟩ := load_last hload
  have hpne : p ≠ hnew := by
    obtain ⟨f0, dp, _, hdbp, _⟩ := load_some_elim hload
    intro hcon
    rw [hcon, hfresh] at hdbp
    cases hdbp
  have hlf : lastFull (∅ : Finset Nat) ps = e.full := lastFull_eq hlaste
  have hdisj : Disjoint (S \ e.full) e.full := Finset.sdiff_disjoint
  have hsub : e.full \ S ⊆ e.full := Finset.sdiff_subset
  obtain ⟨d, t, heq, ht1, ht3, hdpar, hfull, hdisj2, hsub2⟩ :=
    sssd_correct hnew ps.length ps (le_refl _) (S \ e.full) (e.full \ S) 2 hok
      (hlf ▸ hdisj) (hlf ▸ hsub)
  have htarget : (lastFull ∅ ps ∪ (S \ e.full)) \ (e.full \ S) = S := by
    rw [hlf]
    exact union_sdiff_restore e.full S
  rw [htarget] at hfull
  have hsave : save_state db (some p) (hnew, false) F S =
      some (hnew, S \ lastFull ∅ ps, lastFull ∅ ps \ S, [(hnew, d)]) := by
    rw [save_state_unfold, if_neg (by simpa using hpne.symm)]
    dsimp only
    rw [hload]
    dsimp only
    rw [hlaste]
    dsimp only
    rw [heq, hlf]
    simp
  have hdb' : save_statediff db hnew d hnew = some d := by
    simp [save_statediff]
  cases hget : (ps.take t).getLast? with
  | none =>
    rw [hget] at hdpar
    dsimp only [Option.map] at hdpar
    have hlf0 : lastFull (∅ : Finset Nat) (ps.take t) = ∅ := lastFull_of_none hget
    rw [hlf0] at hfull hsub2
    have hrem : d.removed = ∅ := Finset.subset_empty.mp hsub2
    have hadd : d.added = S := by
      rw [hrem] at hfull
      simpa using hfull
    refine ⟨d, [⟨hnew, d.added, d.added, d.removed⟩], 1, hsave,
      load_build_root hdb' hdpar 0, ?_⟩
    simp [hadd]
  | some e1 =>
    rw [hget] at hdpar
    dsimp only [Option.map] at hdpar
    obtain ⟨F2, hl2⟩ := load_prefix db F hload t e1 ht1 hget
    have hnot : ∀ x ∈ ps.take t, x.sstatehash ≠ hnew := by
      intro x hx hcon
      obtain ⟨dx, hdx⟩ := load_keys db F hload x (List.take_subset t ps hx)
      rw [hcon, hfresh] at hdx
      cases hdx
    have hl2' := load_frame db hnew d F2 hl2 hnot
    have hlf1 : lastFull (∅ : Finset Nat) (ps.take t) = e1.full := lastFull_eq hget
    rw [hlf1] at hfull
    refine ⟨d, ps.take t ++
      [⟨hnew, (e1.full ∪ d.added) \ d.removed, d.added, d.removed⟩], F2 + 1,
      hsave, load_build_push hdb' hdpar hl2' hget, ?_⟩
    simp [List.getLast?_concat, hfull]

/-- A concrete store with one root snapshot, used by the witnesses. -/
def dbEx1 : Store := save_statediff emptyStore 5 ⟨none, {1, 2}, ∅⟩

/-- `dbEx1` extended with one child diff layer. -/
def dbEx2 : Store := save_statediff dbEx1 6 ⟨some 5, {3}, {1}⟩

/-- The stack of short_state_hash 6 in `dbEx2`. -/
def stEx : List StackEntry :=
  [⟨5, {1, 2}, {1, 2}, ∅⟩, ⟨6, ({1, 2} ∪ {3}) \ {1}, {3}, {1}⟩]

/-- C1: Commit round-trip.  For a room whose previous parent stack satisfies
invariants 1-2, `save_state` on a freshly minted `H_new` performs exactly one
write, and reconstructing `H_new` with `load_shortstatehash_info` afterwards
yields a stack whose last element's full set is exactly the submitted set `S`,
whichever branches `save_state_from_diff` took. -/
theorem claim_C1 (db : Store) (F p hnew : Nat) (S : Finset Nat)
    (ps : List StackEntry)
    (hload : load_shortstatehash_info db F p = some ps)
    (hok : ChainOK ∅ ps) (hfresh : db hnew = none) :
    ∃ d st F2,
      save_state db (some p) (hnew, false) F S =
        some (hnew, S \ lastFull ∅ ps, lastFull ∅ ps \ S, [(hnew, d)]) ∧
      load_shortstatehash_info (save_statediff db hnew d) F2 hnew = some st ∧
      (st.getLast?).map StackEntry.full = some S :=
  save_state_roundtrip db F p hnew S ps hload hok hfresh

theorem claim_C1_witness :
    ∃ d st F2,
      save_state dbEx1 (some 5) (9, false) 1 {1, 3} =
        some (9, {1, 3} \ lastFull ∅ [⟨5, {1, 2}, {1, 2}, ∅⟩],
              lastFull ∅ [⟨5, {1, 2}, {1, 2}, ∅⟩] \ {1, 3}, [(9, d)]) ∧
      load_shortstatehash_info (save_statediff dbEx1 9 d) F2 9 = some st ∧
      (st.getLast?).map StackEntry.full = some {1, 3} :=
  claim_C1 dbEx1 1 5 9 {1, 3} [⟨5, {1, 2}, {1, 2}, ∅⟩] (by decide)
    ⟨by decide, Finset.disjoint_empty_right _, by decide, trivial⟩ rfl

/-- C2: Depth bound.  In every diff store reachable from the empty store by a
sequence of `save_state` commits, every stack `load_shortstatehash_info`
returns has length at most 4: popping and merging in `save_state_from_diff`
(the depth branch for stacks longer than 3) ensures a fifth layer is never
written. -/
theorem claim_C2 (db : Store) (hreach : Reachable db) (F h : Nat)
    (st : List StackEntry)
    (hl : load_shortstatehash_info db F h = some st) :
    st.length ≤ 4 ∧
    (∀ (ssh : Nat) (dnew drem : Finset Nat) (dts : Nat)
        (l : List StackEntry) (e : StackEntry), 3 < (l ++ [e]).length →
      save_state_from_diff ssh dnew drem dts (l ++ [e]) =
        save_state_from_diff ssh (mergeDiffs dnew drem e.added e.removed).1
          (mergeDiffs dnew drem e.added e.removed).2
          (dnew.card + drem.card) l) :=
  ⟨(reachable_good db hreach).2 F h st hl,
   fun ssh dnew drem dts l e h3 => sssd_deep ssh dnew drem dts l e h3⟩

theorem claim_C2_witness :
    ([⟨7, {1}, {1}, ∅⟩] : List StackEntry).length ≤ 4 ∧
    (∀ (ssh : Nat) (dnew drem : Finset Nat) (dts : Nat)
        (l : List StackEntry) (e : StackEntry), 3 < (l ++ [e]).length →
      save_state_from_diff ssh dnew drem dts (l ++ [e]) =
        save_state_from_diff ssh (mergeDiffs dnew drem e.added e.removed).1
          (mergeDiffs dnew drem e.added e.removed).2
          (dnew.card + drem.card) l) :=
  claim_C2 (applyWrites emptyStore [(7, ⟨none, {1}, ∅⟩)])
    (Reachable.commit emptyStore none 7 0 {1} {1} ∅ [(7, ⟨none, {1}, ∅⟩)]
      Reachable.empty rfl (by simp [save_state_unfold, sssd_nil]))
    1 7 [⟨7, {1}, {1}, ∅⟩] (by decide)

/-- C3: The symmetric-diff fold preserves invariant 2.  If the parent diff
`(Ap, Rp)` satisfies invariant 2 relative to the grandparent's full state `G`
and the child diff `(Ac, Rc)` satisfies it relative to the parent's full
state `(G ∪ Ap) \ Rp`, then the merged diff produced by the two loops again
satisfies invariant 2 relative to `G`, and its two sets are disjoint. -/
theorem claim_C3 (G Ap Rp Ac Rc : Finset Nat)
    (hApG : Ap ∩ G = ∅) (hRpG : Rp ⊆ G)
    (hAcP : Ac ∩ ((G ∪ Ap) \ Rp) = ∅) (hRcP : Rc ⊆ (G ∪ Ap) \ Rp) :
    (mergeDiffs Ac Rc Ap Rp).1 ∩ G = ∅ ∧
    (mergeDiffs Ac Rc Ap Rp).2 ⊆ G ∧
    (mergeDiffs Ac Rc Ap Rp).1 ∩ (mergeDiffs Ac Rc Ap Rp).2 = ∅ := by
  have h := mergeDiffs_spec G Ap Rp Ac Rc
    (Finset.disjoint_iff_inter_eq_empty.mpr hApG) hRpG
    (Finset.disjoint_iff_inter_eq_empty.mpr hAcP) hRcP
  exact ⟨Finset.disjoint_iff_inter_eq_empty.mp h.2.1, h.2.2.1,
    Finset.disjoint_iff_inter_eq_empty.mp h.2.2.2⟩

theorem claim_C3_witness :
    (mergeDiffs {4} {2} {3} {1}).1 ∩ {1, 2} = ∅ ∧
    (mergeDiffs {4} {2} {3} {1}).2 ⊆ {1, 2} ∧
    (mergeDiffs {4} {2} {3} {1}).1 ∩ (mergeDiffs {4} {2} {3} {1}).2 = ∅ :=
  claim_C3 {1, 2} {3} {1} {4} {2} (by decide) (by decide) (by decide) (by decide)

/-- C4: Reconstruction.  A parentless record yields the single-element stack
`(H, added, added, removed)` with `full = added`; a record with parent `P`
yields the stack of `P` extended by one element whose full state is the
parent's full state extended with `added` and with `removed` deleted; the
stack is root-first with the last element corresponding to the queried hash. -/
theorem claim_C4 (db : Store) (F h : Nat) :
    (∀ d, db h = some d → d.parent = none →
      load_shortstatehash_info db (F + 1) h =
        some [⟨h, d.added, d.added, d.removed⟩]) ∧
    (∀ d p ps e, db h = some d → d.parent = some p →
      load_shortstatehash_info db F p = some ps → ps.getLast? = some e →
      load_shortstatehash_info db (F + 1) h =
        some (ps ++ [⟨h, (e.full ∪ d.added) \ d.removed, d.added, d.removed⟩])) ∧
    (∀ st, load_shortstatehash_info db F h = some st →
      ∃ e, st.getLast? = some e ∧ e.sstatehash = h) := by
  refine ⟨?_, ?_, ?_⟩
  · intro d hdb hp
    exact load_build_root hdb hp F
  · intro d p ps e hdb hp hl hlast
    exact load_build_push hdb hp hl hlast
  · intro st hl
    exact load_last hl

theorem claim_C4_witness :
    load_shortstatehash_info dbEx2 1 5 = some [⟨5, {1, 2}, {1, 2}, ∅⟩] ∧
    load_shortstatehash_info dbEx2 2 6 =
      some ([⟨5, {1, 2}, {1, 2}, ∅⟩] ++
        [⟨6, ({1, 2} ∪ {3}) \ {1}, {3}, {1}⟩]) :=
  ⟨(claim_C4 dbEx2 0 5).1 ⟨none, {1, 2}, ∅⟩ rfl rfl,
   (claim_C4 dbEx2 1 6).2.1 ⟨some 5, {3}, {1}⟩ 5 [⟨5, {1, 2}, {1, 2}, ∅⟩]
     ⟨5, {1, 2}, {1, 2}, ∅⟩ rfl rfl (by decide) rfl⟩

/-- C5: Size test placement.  On a non-empty parent stack of length at most 3,
`save_state_from_diff` persists `StateDiff{parent := top.sstatehash, added,
removed}` exactly when `diffsum² < 2 · diff_to_sibling · parent_diff`, and
otherwise pops the top parent, merges via the symmetric-diff fold and
recurses with `diff_to_sibling` set to the pre-merge `diffsum`. -/
theorem claim_C5 (ssh : Nat) (dnew drem : Finset Nat) (dts : Nat)
    (l : List StackEntry) (e : StackEntry) (hlen : (l ++ [e]).length ≤ 3) :
    ((dnew.card + drem.card) * (dnew.card + drem.card) <
        2 * dts * (e.added.card + e.removed.card) →
      save_state_from_diff ssh dnew drem dts (l ++ [e]) =
        [(ssh, ⟨some e.sstatehash, dnew, drem⟩)]) ∧
    (2 * dts * (e.added.card + e.removed.card) ≤
        (dnew.card + drem.card) * (dnew.card + drem.card) →
      save_state_from_diff ssh dnew drem dts (l ++ [e]) =
        save_state_from_diff ssh (mergeDiffs dnew drem e.added e.removed).1
          (mergeDiffs dnew drem e.added e.removed).2
          (dnew.card + drem.card) l) := by
  constructor
  · intro hlt
    rw [sssd_last ssh dnew drem dts l e hlen, if_neg (by omega)]
  · intro hge
    rw [sssd_last ssh dnew drem dts l e hlen, if_pos (by omega)]

theorem claim_C5_witness :
    save_state_from_diff 1 {1} ∅ 2 [⟨5, {2}, {2}, ∅⟩] =
      [(1, ⟨some 5, {1}, ∅⟩)] :=
  (claim_C5 1 {1} ∅ 2 [] ⟨5, {2}, {2}, ∅⟩ (by decide)).1 (by decide)

/-- C6: Idempotent no-op commit.  When the minted hash equals the previous
one, `save_state` returns `(H_new, ∅, ∅)` with no write; and whenever the
allocator reports `already_existed = true`, `save_state` performs no write at
all, leaving the diff store unchanged. -/
theorem claim_C6 (db : Store) (prev : Option Nat) (mint : Nat × Bool) (F : Nat)
    (S : Finset Nat) :
    (some mint.1 = prev →
      save_state db prev mint F S = some (mint.1, ∅, ∅, [])) ∧
    (mint.2 = true → ∀ h A R ws,
      save_state db prev mint F S = some (h, A, R, ws) →
      h = mint.1 ∧ ws = []) := by
  constructor
  · intro hsame
    rw [save_state_unfold, if_pos hsame]
  · intro hex h A R ws hsv
    rw [save_state_unfold] at hsv
    by_cases hsame : some mint.1 = prev
    · rw [if_pos hsame] at hsv
      simp only [Option.some.injEq, Prod.mk.injEq] at hsv
      exact ⟨hsv.1.symm, hsv.2.2.2.symm⟩
    · rw [if_neg hsame] at hsv
      cases prev with
      | none =>
        dsimp only at hsv
        rw [if_pos hex] at hsv
        simp only [Option.some.injEq, Prod.mk.injEq] at hsv
        exact ⟨hsv.1.symm, hsv.2.2.2.symm⟩
      | some p =>
        dsimp only at hsv
        cases hload : load_shortstatehash_info db F p with
        | none =>
          rw [hload] at hsv
          simp at hsv
        | some ps =>
          rw [hload] at hsv
          dsimp only at hsv
          rw [if_pos hex] at hsv
          simp only [Option.some.injEq, Prod.mk.injEq] at hsv
          exact ⟨hsv.1.symm, hsv.2.2.2.symm⟩

theorem claim_C6_witness :
    save_state dbEx1 (some 7) (7, false) 0 {1} = some (7, ∅, ∅, []) ∧
    (9 = 9 ∧ ([] : List (Nat × StateDiff)) = []) :=
  ⟨(claim_C6 dbEx1 (some 7) (7, false) 0 {1}).1 rfl,
   (claim_C6 dbEx1 (some 5) (9, true) 1 {3}).2 rfl 9 ({3} \ {1, 2})
     ({1, 2} \ {3}) [] (by decide)⟩

/-- C7: Codec round-trip and injectivity.  `compress_state_event` is the
16-byte big-endian concatenation of the two 64-bit values; parsing it back
recovers the original short state key and the event registered under the
short event id; and compression is injective on 64-bit pairs. -/
theorem claim_C7 (k s : Nat) (hk : k < 2 ^ 64) (hs : s < 2 ^ 64) :
    compress_state_event k s = u64_to_be_bytes k ++ u64_to_be_bytes s ∧
    (∀ (reg : Nat → Option Nat) (e : Nat), reg s = some e →
      parse_compressed_state_event reg (compress_state_event k s) =
        some (k, e)) ∧
    (∀ k' s', k' < 2 ^ 64 → s' < 2 ^ 64 →
      compress_state_event k s = compress_state_event k' s' →
      k = k' ∧ s = s') := by
  refine ⟨rfl, ?_, ?_⟩
  · intro reg e hreg
    unfold parse_compressed_state_event
    rw [compress_drop, u64_roundtrip s hs, hreg]
    dsimp only
    rw [compress_take, u64_roundtrip k hk]
  · intro k' s' hk' hs' h
    exact compress_injective k s k' s' hk hs hk' hs' h

theorem claim_C7_witness :
    compress_state_event 3 7 = u64_to_be_bytes 3 ++ u64_to_be_bytes 7 ∧
    (∀ (reg : Nat → Option Nat) (e : Nat), reg 7 = some e →
      parse_compressed_state_event reg (compress_state_event 3 7) =
        some (3, e)) ∧
    (∀ k' s', k' < 2 ^ 64 → s' < 2 ^ 64 →
      compress_state_event 3 7 = compress_state_event k' s' →
      3 = k' ∧ 7 = s') :=
  claim_C7 3 7 (by decide) (by decide)

/-- C8: Cache transparency.  On any coherent cache state (the empty cache is
coherent, eviction preserves coherence, and loads only insert coherent
entries), the cached load returns exactly the stack the uncached recursive
walk computes, and leaves the cache coherent. -/
theorem claim_C8 (db : Store) (c : Cache) (F h : Nat) (st : List StackEntry)
    (hcoh : Coherent db c)
    (hl : load_shortstatehash_info db F h = some st) :
    (load_cached db F c h).1 = some st ∧
    Coherent db (load_cached db F c h).2 :=
  load_cached_correct db F c hcoh hl

theorem claim_C8_witness :
    (load_cached dbEx1 1 (fun _ => none) 5).1 =
      some [⟨5, {1, 2}, {1, 2}, ∅⟩] ∧
    Coherent dbEx1 (load_cached dbEx1 1 (fun _ => none) 5).2 :=
  claim_C8 dbEx1 (fun _ => none) 1 5 [⟨5, {1, 2}, {1, 2}, ∅⟩]
    (coherent_empty dbEx1) (by decide)

/-- C9: Single-key write frame.  Every call to `save_state_from_diff`
performs exactly one `save_statediff` write, always keyed by the original
`shortstatehash` argument; applying the writes leaves every other key of the
diff store unchanged. -/
theorem claim_C9 (db : Store) (ssh : Nat) (dnew drem : Finset Nat) (dts : Nat)
    (ps : List StackEntry) :
    ∃ d, save_state_from_diff ssh dnew drem dts ps = [(ssh, d)] ∧
      ∀ k, k ≠ ssh →
        applyWrites db (save_state_from_diff ssh dnew drem dts ps) k = db k := by
  obtain ⟨d, t, heq, _, _, _⟩ :=
    sssd_structure ssh ps.length ps (le_refl _) dnew drem dts
  refine ⟨d, heq, ?_⟩
  intro k hk
  rw [heq, applyWrites_single]
  simp [save_statediff, hk]

/-- C10: Stack prefix coherence.  For a non-root hash whose record names
parent `P`, the stack of `P` is the stack of `H` with its last element
removed; more generally the stack of every ancestor (every non-empty prefix's
last entry) is the corresponding prefix of the stack of `H`. -/
theorem claim_C10 (db : Store) (F h p : Nat) (d : StateDiff)
    (st : List StackEntry)
    (hl : load_shortstatehash_info db F h = some st)
    (hdb : db h = some d) (hp : d.parent = some p) :
    (∃ F2, load_shortstatehash_info db F2 p = some st.dropLast) ∧
    (∀ t e, t ≤ st.length → (st.take t).getLast? = some e →
      ∃ F3, load_shortstatehash_info db F3 e.sstatehash = some (st.take t)) := by
  constructor
  · obtain ⟨f, d', rfl, hdb', hc⟩ := load_some_elim hl
    have hd' : d' = d := by
      rw [hdb] at hdb'
      exact (Option.some.injEq _ _).mp hdb'.symm
    subst hd'
    rcases hc with ⟨hpn, _⟩ | ⟨q, resp, last, hpq, hr, hlast, rfl⟩
    · rw [hpn] at hp
      cases hp
    · rw [hpq] at hp
      obtain ⟨rfl⟩ : q = p := by simpa using hp
      exact ⟨f, by rw [List.dropLast_concat]; exact hr⟩
  · intro t e ht hget
    exact load_prefix db F hl t e ht hget

theorem claim_C10_witness :
    (∃ F2, load_shortstatehash_info dbEx2 F2 5 = some stEx.dropLast) ∧
    (∀ t e, t ≤ stEx.length → (stEx.take t).getLast? = some e →
      ∃ F3, load_shortstatehash_info dbEx2 F3 e.sstatehash =
        some (stEx.take t)) :=
  claim_C10 dbEx2 2 6 5 ⟨some 5, {3}, {1}⟩ stEx (by decide) rfl rfl

end StateCompressor
